import Mathlib

/-!
Verification of the state-backend and pane/window engine of the vldb-2020
streaming benchmark repository.

The Rust sources are shallowly embedded:
* bincode serialization of unsigned 64-bit integers is fixed-width
  little-endian (`leBytes 8`), of strings a `u64` length prefix followed by
  the raw bytes (`serializeStr`);
* the `to_be()` transform applied by callers before serializing integer map
  keys is `toBe64`, so that the serialized form of `k.to_be()` is the
  big-endian byte sequence of `k` (`beBytes 8`, proved below);
* a key-value store (RocksDB instance, FASTER instance, in-memory map) is a
  function from keys to optional values; reads on a healthy store succeed;
* Rust `panic!`/`expect`/`assert!` are `Except String` errors or `Option`
  failure, as noted on each definition.
-/

namespace VLDB

/-! ## Byte-level serialization (bincode interface) -/

/-- Little-endian fixed-width byte encoding: `leBytes w n` is the `w`
low-order base-256 digits of `n`, least significant first.  This is the
bincode encoding of a `u64` for `w = 8`. -/
def leBytes : Nat → Nat → List Nat
  | 0, _ => []
  | w + 1, n => n % 256 :: leBytes w (n / 256)

/-- Read a little-endian byte list back as a number. -/
def fromLeBytes : List Nat → Nat
  | [] => 0
  | b :: bs => b + 256 * fromLeBytes bs

/-- Big-endian fixed-width byte encoding, most significant digit first. -/
def beBytes : Nat → Nat → List Nat
  | 0, _ => []
  | w + 1, n => n / 256 ^ w :: beBytes w (n % 256 ^ w)

/-- Rust `u64::to_be`: reinterpret the reversed byte sequence of `n` as a
number (a byte swap on a little-endian machine). -/
def toBe64 (n : Nat) : Nat := fromLeBytes ((leBytes 8 n).reverse)

/-- bincode serialization of a string (the map name): a `u64` length prefix
followed by the raw bytes. -/
def serializeStr (s : List Nat) : List Nat := leBytes 8 s.length ++ s

/-- bincode serialization of a `u64` value. -/
def serU64 (n : Nat) : List Nat := leBytes 8 n

/-- bincode deserialization of a `u64` from a byte buffer: reads the first
8 bytes and ignores any trailing bytes (the behaviour of
`bincode::deserialize::<u64>` on a slice). -/
def decodeU64 (bs : List Nat) : Option Nat :=
  if 8 ≤ bs.length then some (fromLeBytes (bs.take 8)) else none

/-- Byte-lexicographic `≤` on byte strings, as used by the storage engine's
default comparator. -/
def bytesLe : List Nat → List Nat → Bool
  | [], _ => true
  | _ :: _, [] => false
  | a :: as, b :: bs =>
    if a < b then true else if b < a then false else bytesLe as bs

/-! ## Key-value store model

A healthy store (RocksDB or FASTER instance with no I/O fault) is a partial
map from serialized keys to stored values; point reads on it succeed. -/

def Store (α : Type) := List Nat → Option α

def storePut {α : Type} (db : Store α) (k : List Nat) (v : α) : Store α :=
  fun q => if q = k then some v else db q

def storeDelete {α : Type} (db : Store α) (k : List Nat) : Store α :=
  fun q => if q = k then none else db q

def emptyStore {α : Type} : Store α := fun _ => none

/-! ## RocksDB read-then-write backend
(`state/src/backends/rocksdb/managed_map.rs`), instantiated at the `u64`
key/value types the queries use. -/

/-- `RocksDBManagedMap::new` keeps `bincode::serialize(name)`. -/
def rdbName (name : List Nat) : List Nat := serializeStr name

/-- `RocksDBManagedMap::prefix_key`: the serialized name followed by the
serialized key. -/
def rdbPrefixKey (name : List Nat) (k : Nat) : List Nat :=
  rdbName name ++ serU64 k

/-- `get_key_prefix_length`: `self.name.len()`. -/
def rdbKeyPrefixLength (name : List Nat) : Nat := (rdbName name).length

/-- `insert`: put the serialized value at the prefixed key. -/
def rdbInsert (name : List Nat) (db : Store (List Nat)) (k v : Nat) :
    Store (List Nat) :=
  storePut db (rdbPrefixKey name k) (serU64 v)

/-- `self.db.get(prefixed_key)` on a healthy database: the read succeeds and
yields the stored bytes, if any. -/
def rdbRawGet (name : List Nat) (db : Store (List Nat)) (k : Nat) :
    Except String (Option (List Nat)) :=
  Except.ok (db (rdbPrefixKey name k))

/-- `get`: read the prefixed key, deserialize the stored bytes; a
deserialization failure is a panic (`.unwrap()`). -/
def rdbGet (name : List Nat) (db : Store (List Nat)) (k : Nat) :
    Except String (Option Nat) :=
  match db (rdbPrefixKey name k) with
  | none => Except.ok none
  | some bs =>
    match decodeU64 bs with
    | some v => Except.ok (some v)
    | none => Except.error "deserialization failed"

/-- `remove`: read-and-decode the prefixed key to produce the returned prior
value, then `self.db.delete(&self.name)` — the delete targets the bare
serialized map name, not the prefixed key that was read. -/
def rdbRemove (name : List Nat) (db : Store (List Nat)) (k : Nat) :
    Except String (Option Nat) × Store (List Nat) :=
  (rdbGet name db k, storeDelete db (rdbName name))

/-- `contains`: `self.db.get(prefixed_key).is_ok()`. -/
def rdbContains (name : List Nat) (db : Store (List Nat)) (k : Nat) : Bool :=
  match rdbRawGet name db k with
  | Except.ok _ => true
  | Except.error _ => false

/-- `next` (read-then-write backend): `&raw_key[self.name.len()..]` — drop
the name prefix from the raw iteration key, then deserialize. -/
def rdbNextKey (name : List Nat) (rawKey : List Nat) : Option Nat :=
  decodeU64 (rawKey.drop (rdbName name).length)

/-! ## RocksDB merge-operator backend
(`state/src/backends/rocksdbmerge/managed_map.rs`). Its `prefix_key`,
`insert`, `get`, `remove` and `contains` are textually identical to the
read-then-write backend; `next` differs. -/

/-- `next` (merge-operator backend): deserializes the whole raw key — the
name prefix is not dropped. -/
def mergeNextKey (rawKey : List Nat) : Option Nat := decodeU64 rawKey

/-- `contains` (merge-operator backend): same `is_ok` test on the read. -/
def mergeContains (name : List Nat) (db : Store (List Nat)) (k : Nat) : Bool :=
  match rdbRawGet name db k with
  | Except.ok _ => true
  | Except.error _ => false

/-! ## FASTER backend (`state/src/backends/faster_node/managed_map.rs`). -/

/-- `faster_read`: the status is OK exactly when the key is present, and the
value then arrives on the returned channel. -/
def fasterRead (st : Store Nat) (k : List Nat) : Bool × Option Nat :=
  ((st k).isSome, st k)

/-- `FASTERManagedMap::prefix_key`. -/
def fstPrefixKey (name : List Nat) (k : Nat) : List Nat :=
  serializeStr name ++ serU64 k

/-- `insert`: `faster_upsert` at the prefixed key. -/
def fstInsert (name : List Nat) (st : Store Nat) (k v : Nat) : Store Nat :=
  storePut st (fstPrefixKey name k) v

/-- `get`: a `faster_read`; `None` unless the status is OK. -/
def fstGet (name : List Nat) (st : Store Nat) (k : Nat) : Option Nat :=
  let r := fasterRead st (fstPrefixKey name k)
  if r.1 then r.2 else none

/-- `FASTERManagedMap::remove`: performs only a `faster_read`; the store is
left untouched. -/
def fstRemove (name : List Nat) (st : Store Nat) (k : Nat) :
    Option Nat × Store Nat :=
  (fstGet name st k, st)

/-! ## In-memory backend
(`state/src/backends/in_memory/managed_map.rs`): the typed inner
`HashMap<K, Rc<V>>` stored under the map's name. -/

def InnerMap := Nat → Option Nat

def imInsert (m : InnerMap) (k v : Nat) : InnerMap :=
  fun q => if q = k then some v else m q

def imGet (m : InnerMap) (k : Nat) : Option Nat := m k

/-- `InMemoryManagedMap::remove`: `inner_map.remove(&key)` returns the prior
value and deletes the entry. -/
def imRemove (m : InnerMap) (k : Nat) : Option Nat × InnerMap :=
  (m k, fun q => if q = k then none else m q)

/-! ## Pane/window engine -/

/-- `(t / slide + 1) * slide`: the end timestamp of the slide the epoch `t`
falls in. The same formula assigns an event timestamp to its pane. -/
def currentSlide (slide t : Nat) : Nat := (t / slide + 1) * slide

/-- Rust `(a..b).step_by(s)` for `s > 0`: the values `a, a+s, ...` strictly
below `b`, enumerated through their count `⌈(b-a)/s⌉`. -/
def stepRangeAux (a s : Nat) : Nat → List Nat
  | 0 => []
  | n + 1 => a :: stepRangeAux (a + s) s n

def stepRange (a b s : Nat) : List Nat :=
  stepRangeAux a s ((b - a + s - 1) / s)

/-- The keyed query's slide loop: each new slide boundary
`sl in (last_slide_seen+slide..current_slide+slide).step_by(slide)` yields
`window_end = sl + slide * (slice_count - 1)`; a window end strictly behind
`current_slide` is added to the pending-fire set `to_fire`, any other gets a
notification request. Returns (pending-fire additions, notification times)
in loop order. -/
def scheduleWindows (lastSlideSeen currentSl slide sliceCount : Nat) :
    List Nat × List Nat :=
  (stepRange (lastSlideSeen + slide) (currentSl + slide) slide).foldl
    (fun acc sl =>
      let windowEnd := sl + slide * (sliceCount - 1)
      if windowEnd < currentSl then (acc.1 ++ [windowEnd], acc.2)
      else (acc.1, acc.2 ++ [windowEnd]))
    ([], [])

/-- The slide-cursor update of one input batch at epoch `t`:
`assert!(last_slide_seen <= current_slide)` (failure is `none`), then
advance `last_slide_seen` to `current_slide` if it moved. -/
def batchStep (slide last t : Nat) : Option Nat :=
  if currentSlide slide t < last then none
  else if last < currentSlide slide t then some (currentSlide slide t)
  else some last

/-- The successive values of `last_slide_seen` over a run of input batches,
or `none` if some batch fails the assertion. -/
def batchTrace (slide : Nat) : Nat → List Nat → Option (List Nat)
  | _, [] => some []
  | last, t :: ts =>
    match batchStep slide last t with
    | none => none
    | some l => (batchTrace slide l ts).map (l :: ·)

/-! ### Rank aggregation (`window_3_faster_rank.rs`, notification handler) -/

/-- The emit loop of the rank query over the sorted window contents, with
state (current run value `current_record`, its `rank`, and the size `count`
of the current run). -/
def rankLoop : List Nat → Nat → Nat → Nat → List (Nat × Nat)
  | [], _, _, _ => []
  | r :: rest, current, rank, count =>
    if r ≠ current then (r, rank + count) :: rankLoop rest r (rank + count) 1
    else (r, rank) :: rankLoop rest current rank (count + 1)

/-- `records.sort_unstable()`: any correct ascending sort of a `Nat` list
produces this list. -/
def sortAsc (l : List Nat) : List Nat := l.insertionSort (· ≤ ·)

/-- The emit loop over the sorted records, seeded with
`current_record = records[0]`, `rank = 1`, `count = 0`. (On an empty window
the source indexes `records[0]` and panics; the claims concern non-empty
windows, and the model returns `[]`.) -/
def windowRankAux : List Nat → List (Nat × Nat)
  | [] => []
  | h :: t => rankLoop (h :: t) h 1 0

/-- Ranking of the collected window records: sort ascending, then run the
emit loop. -/
def windowRank (l : List Nat) : List (Nat × Nat) :=
  windowRankAux (sortAsc l)

/-- The emitted rank records `(window_end, key, rank)`. -/
def windowRankEmit (w : Nat) (l : List Nat) : List (Nat × Nat × Nat) :=
  (windowRank l).map (fun p => (w, p.1, p.2))

def countLt (l : List Nat) (x : Nat) : Nat :=
  l.countP (fun y => decide (y < x))

def countEq (l : List Nat) (x : Nat) : Nat :=
  l.countP (fun y => decide (y = x))

/-! ### Global count window close (`window_3_faster_count.rs`, handler) -/

/-- The pane loop of the global count query's window-close handler,
iterating `i` over `0..slice_count`: a present pane at `w - slide * i` adds
its count, a missing one is logged and contributes nothing; at
`i = slice_count - 1` the first pane of the window is removed and the result
is `.expect("Pane to remove must exist")`-ed. Removal is a read on the
backing store, so the expect fails exactly when that pane is absent. -/
def globalFireLoop (buckets : Nat → Option Nat) (w slide sliceCount : Nat) :
    List Nat → Nat → Except String Nat
  | [], count => Except.ok count
  | i :: rest, count =>
    let pane := w - slide * i
    let count2 := count + (buckets pane).getD 0
    if i = sliceCount - 1 then
      match buckets pane with
      | none => Except.error "Pane to remove must exist"
      | some _ => globalFireLoop buckets w slide sliceCount rest count2
    else globalFireLoop buckets w slide sliceCount rest count2

/-- The whole handler: run the pane loop over `0..slice_count`, then emit
`(window_end, count)`. -/
def globalCountFire (buckets : Nat → Option Nat) (w slide sliceCount : Nat) :
    Except String (Nat × Nat) :=
  (globalFireLoop buckets w slide sliceCount (List.range sliceCount) 0).map
    (fun c => (w, c))

/-! ### Keyed count window close (`keyed_window_3_faster_count.rs`) -/

/-- The slice index granularity hard-coded in the keyed queries. -/
def sliceWidth : Nat := 1000000000

/-- Step 1: the distinct keys across the window's slices, in first-seen
order (the source accumulates them in a `HashSet`; a missing slice is only
logged). -/
def collectKeys (index : Nat → Option (List Nat)) (slices : List Nat) :
    List Nat :=
  slices.foldl
    (fun acc slice =>
      match index slice with
      | some keys => keys.foldl (fun a k => if k ∈ a then a else a ++ [k]) acc
      | none => acc)
    []

/-- Step 2, per key: look up the keyed panes `(key, w - slide * i)` for
`i in 0..slice_count`; absent panes contribute nothing. The removal of the
first pane (at `i = slice_count - 1`) discards its result
(`pane_buckets.remove(&composite_key);` with the expect commented out), so
it never aborts and does not affect the count. -/
def keyedPaneSum (buckets : Nat × Nat → Option Nat)
    (key w slide sliceCount : Nat) : Nat :=
  ((List.range sliceCount).map
    (fun i => (buckets (key, w - slide * i)).getD 0)).sum

/-- Step 3: remove each expiring slice-index entry and
`.expect("Slice must exist in index")` the result; removal is a read on the
backing store, so this aborts exactly at an absent slice. -/
def slicePurge (index : Nat → Option (List Nat)) :
    List Nat → Except String Unit
  | [] => Except.ok ()
  | s :: rest =>
    match index s with
    | none => Except.error "Slice must exist in index"
    | some _ => slicePurge index rest

/-- The keyed count query's window-close handler for one window: compute the
per-key outputs `(key, count)` — emitted as they are computed — then purge
the expiring slice-index entries, which may abort. -/
def keyedCountFire (index : Nat → Option (List Nat))
    (buckets : Nat × Nat → Option Nat) (w slide sliceCount : Nat) :
    List (Nat × Nat) × Except String Unit :=
  let windowStart := w - slide * sliceCount
  let slices := stepRange (windowStart + sliceWidth) (w + sliceWidth) sliceWidth
  let keys := collectKeys index slices
  let outputs :=
    keys.map (fun k => (k, keyedPaneSum buckets k w slide sliceCount))
  let purgeSlices :=
    stepRange (windowStart + sliceWidth) (windowStart + slide + 1) sliceWidth
  (outputs, slicePurge index purgeSlices)

/-! ### Ordered integer keys (`window_1_rocksdb.rs`) -/

/-- The stored key bytes for an integer key that the call site transforms
with `.to_be()` before insertion
(`window_contents.insert(key.to_be(), ...)`): the serialized map name
followed by the bincode bytes of `key.to_be()`. -/
def storedIntKey (name : List Nat) (k : Nat) : List Nat :=
  serializeStr name ++ serU64 (toBe64 k)

/-! ## Serialization lemmas -/

@[simp] theorem leBytes_length (w n : Nat) : (leBytes w n).length = w := by
  induction w generalizing n with
  | zero => rfl
  | succ w ih => simp [leBytes, ih]

theorem leBytes_lt (w n : Nat) : ∀ b ∈ leBytes w n, b < 256 := by
  induction w generalizing n with
  | zero => intro b hb; simp [leBytes] at hb
  | succ w ih =>
    intro b hb
    simp only [leBytes, List.mem_cons] at hb
    rcases hb with h | h
    · exact h ▸ Nat.mod_lt _ (by norm_num)
    · exact ih _ b h

theorem fromLeBytes_leBytes (w n : Nat) :
    fromLeBytes (leBytes w n) = n % 256 ^ w := by
  induction w generalizing n with
  | zero => simp [leBytes, fromLeBytes, Nat.mod_one]
  | succ w ih =>
    simp only [leBytes, fromLeBytes, ih]
    rw [Nat.pow_succ', Nat.mod_mul]

theorem leBytes_fromLeBytes (bs : List Nat) (h : ∀ b ∈ bs, b < 256) :
    leBytes bs.length (fromLeBytes bs) = bs := by
  induction bs with
  | nil => rfl
  | cons b bs ih =>
    have hb : b < 256 := h b (List.mem_cons_self _ _)
    simp only [List.length_cons, leBytes, fromLeBytes, List.cons.injEq]
    constructor
    · omega
    · rw [Nat.add_mul_div_left _ _ (by norm_num : (0:Nat) < 256),
        Nat.div_eq_of_lt hb, Nat.zero_add]
      exact ih (fun x hx => h x (List.mem_cons_of_mem _ hx))

/-- Serializing the byte-swapped `n.to_be()` yields exactly the reversed
(big-endian) byte sequence of `n`. -/
theorem leBytes_toBe64 (n : Nat) :
    leBytes 8 (toBe64 n) = (leBytes 8 n).reverse := by
  have hlen : ((leBytes 8 n).reverse).length = 8 := by simp
  have hbytes : ∀ b ∈ (leBytes 8 n).reverse, b < 256 := by
    intro b hb
    exact leBytes_lt 8 n b (List.mem_reverse.mp hb)
  calc leBytes 8 (toBe64 n)
      = leBytes ((leBytes 8 n).reverse).length (fromLeBytes ((leBytes 8 n).reverse)) := by
        rw [hlen]; rfl
    _ = (leBytes 8 n).reverse := leBytes_fromLeBytes _ hbytes

theorem beBytes_snoc (w : Nat) : ∀ n, n < 256 ^ (w + 1) →
    beBytes (w + 1) n = beBytes w (n / 256) ++ [n % 256] := by
  induction w with
  | zero =>
    intro n hn
    simp only [beBytes, Nat.pow_zero, Nat.div_one, List.nil_append]
    rw [Nat.mod_eq_of_lt (by simpa using hn)]
  | succ w ih =>
    intro n hn
    have h1 : n / 256 ^ (w + 1) = n / 256 / 256 ^ w := by
      rw [Nat.pow_succ', Nat.div_div_eq_div_mul]
    have h2 : n % 256 ^ (w + 1) / 256 = n / 256 % 256 ^ w := by
      rw [Nat.pow_succ', Nat.mod_mul_right_div_self]
    have h3 : n % 256 ^ (w + 1) % 256 = n % 256 :=
      Nat.mod_mod_of_dvd n (dvd_pow_self 256 (Nat.succ_ne_zero w))
    have hmod : n % 256 ^ (w + 1) < 256 ^ (w + 1) :=
      Nat.mod_lt _ (Nat.pos_pow_of_pos _ (by norm_num))
    calc beBytes (w + 2) n
        = n / 256 ^ (w + 1) :: beBytes (w + 1) (n % 256 ^ (w + 1)) := rfl
      _ = n / 256 ^ (w + 1) ::
            (beBytes w (n % 256 ^ (w + 1) / 256) ++ [n % 256 ^ (w + 1) % 256]) := by
          rw [ih _ hmod]
      _ = n / 256 / 256 ^ w :: (beBytes w (n / 256 % 256 ^ w) ++ [n % 256]) := by
          rw [h1, h2, h3]
      _ = beBytes (w + 1) (n / 256) ++ [n % 256] := rfl

/-- The big-endian encoding is the reverse of the little-endian one. -/
theorem beBytes_eq_reverse (w : Nat) : ∀ n, n < 256 ^ w →
    beBytes w n = (leBytes w n).reverse := by
  induction w with
  | zero => intro n _; rfl
  | succ w ih =>
    intro n hn
    rw [beBytes_snoc w n hn, leBytes]
    simp only [List.reverse_cons]
    rw [ih (n / 256) ?_]
    · have h256 : 0 < (256:Nat) := by norm_num
      rw [Nat.div_lt_iff_lt_mul h256, ← Nat.pow_succ]
      exact hn

theorem bytesLe_append_same (p : List Nat) (x y : List Nat) :
    bytesLe (p ++ x) (p ++ y) = bytesLe x y := by
  induction p with
  | nil => rfl
  | cons a p ih => simp [bytesLe, ih]

theorem lt_div_succ_mul (a E : Nat) (hE : 0 < E) : a < (a / E + 1) * E := by
  have h1 := Nat.div_add_mod a E
  have h2 := Nat.mod_lt a hE
  calc a = E * (a / E) + a % E := h1.symm
    _ < E * (a / E) + E := Nat.add_lt_add_left h2 _
    _ = (a / E + 1) * E := by ring

/-- Byte-lexicographic comparison of equal-width big-endian encodings agrees
with numeric comparison. -/
theorem beBytes_le_iff (w : Nat) : ∀ a b, a < 256 ^ w → b < 256 ^ w →
    (bytesLe (beBytes w a) (beBytes w b) = true ↔ a ≤ b) := by
  induction w with
  | zero =>
    intro a b ha hb
    simp only [Nat.pow_zero, Nat.lt_one_iff] at ha hb
    subst ha; subst hb
    simp [beBytes, bytesLe]
  | succ w ih =>
    intro a b _ _
    have hE : 0 < 256 ^ w := Nat.pos_pow_of_pos _ (by norm_num)
    simp only [beBytes, bytesLe]
    rcases Nat.lt_trichotomy (a / 256 ^ w) (b / 256 ^ w) with h | h | h
    · rw [if_pos h]
      constructor
      · intro _
        calc a ≤ (a / 256 ^ w + 1) * 256 ^ w := Nat.le_of_lt (lt_div_succ_mul a _ hE)
          _ ≤ b / 256 ^ w * 256 ^ w := Nat.mul_le_mul_right _ h
          _ ≤ b := Nat.div_mul_le_self b _
      · intro _
        rfl
    · rw [h, if_neg (Nat.lt_irrefl _), if_neg (Nat.lt_irrefl _)]
      rw [ih _ _ (Nat.mod_lt _ hE) (Nat.mod_lt _ hE)]
      constructor
      · intro hmod
        calc a = 256 ^ w * (a / 256 ^ w) + a % 256 ^ w := (Nat.div_add_mod _ _).symm
          _ ≤ 256 ^ w * (b / 256 ^ w) + b % 256 ^ w := by
              rw [h]; exact Nat.add_le_add_left hmod _
          _ = b := Nat.div_add_mod _ _
      · intro hab
        by_contra hlt
        push_neg at hlt
        have hba : b < a := by
          calc b = 256 ^ w * (b / 256 ^ w) + b % 256 ^ w := (Nat.div_add_mod _ _).symm
            _ < 256 ^ w * (a / 256 ^ w) + a % 256 ^ w := by
                rw [h]; exact Nat.add_lt_add_left hlt _
            _ = a := Nat.div_add_mod _ _
        omega
    · rw [if_neg (Nat.lt_asymm h), if_pos h]
      simp only [Bool.false_eq_true, false_iff, Nat.not_le]
      calc b < (b / 256 ^ w + 1) * 256 ^ w := lt_div_succ_mul b _ hE
        _ ≤ a / 256 ^ w * 256 ^ w := Nat.mul_le_mul_right _ h
        _ ≤ a := Nat.div_mul_le_self a _

/-! ## Rank-loop correctness helpers -/

theorem countLt_append (l m : List Nat) (x : Nat) :
    countLt (l ++ m) x = countLt l x + countLt m x :=
  List.countP_append _ _ _

theorem countEq_append (l m : List Nat) (x : Nat) :
    countEq (l ++ m) x = countEq l x + countEq m x :=
  List.countP_append _ _ _

theorem countLt_eq_zero (m : List Nat) (x : Nat) (h : ∀ y ∈ m, x ≤ y) :
    countLt m x = 0 :=
  List.countP_eq_zero.mpr (fun a ha => by
    simp only [decide_eq_true_eq]
    exact Nat.not_lt.mpr (h a ha))

theorem countLt_eq_length (m : List Nat) (x : Nat) (h : ∀ y ∈ m, y < x) :
    countLt m x = m.length :=
  List.countP_eq_length.mpr (fun a ha => by
    simp only [decide_eq_true_eq]
    exact h a ha)

theorem countEq_eq_zero (m : List Nat) (x : Nat) (h : ∀ y ∈ m, y ≠ x) :
    countEq m x = 0 :=
  List.countP_eq_zero.mpr (fun a ha => by
    simp only [decide_eq_true_eq]
    exact h a ha)

theorem countLt_add_countEq (m : List Nat) (x : Nat) (h : ∀ y ∈ m, y ≤ x) :
    countLt m x + countEq m x = m.length := by
  induction m with
  | nil => rfl
  | cons y m ih =>
    have hy : y ≤ x := h y (List.mem_cons_self _ _)
    have ih' := ih (fun z hz => h z (List.mem_cons_of_mem _ hz))
    simp only [countLt, countEq, List.countP_cons, List.length_cons]
    simp only [countLt, countEq] at ih'
    rcases Nat.lt_or_ge y x with hlt | hge
    · rw [decide_eq_true hlt, decide_eq_false (Nat.ne_of_lt hlt),
        if_pos rfl, if_neg Bool.false_ne_true]
      omega
    · have heq : y = x := Nat.le_antisymm hy hge
      rw [decide_eq_true heq, decide_eq_false (Nat.not_lt.mpr hge),
        if_pos rfl, if_neg Bool.false_ne_true]
      omega

theorem countLt_perm (l l' : List Nat) (x : Nat) (h : List.Perm l l') :
    countLt l x = countLt l' x :=
  h.countP_eq _

/-- Invariant proof for the rank emit loop: if the already-emitted prefix is
`p` (nonempty, all values at most `current`, `current` among them) and the
loop state holds `rank = 1 + countLt p current` and `count = countEq p
current`, then the loop emits each remaining record with rank
`1 + (number of window records strictly smaller)`. -/
theorem rankLoop_spec (s : List Nat) : ∀ (p : List Nat) (current : Nat),
    (p ++ s).Sorted (· ≤ ·) → current ∈ p → (∀ y ∈ p, y ≤ current) →
    rankLoop s current (1 + countLt p current) (countEq p current)
      = s.map (fun r => (r, 1 + countLt (p ++ s) r)) := by
  induction s with
  | nil => intro p current _ _ _; simp [rankLoop]
  | cons r s ih =>
    intro p current hsort hmem hub
    obtain ⟨hp, hrs, hcross⟩ := List.pairwise_append.mp hsort
    have hcur_r : current ≤ r := hcross current hmem r (List.mem_cons_self _ _)
    obtain ⟨hr_s, hs⟩ := List.sorted_cons.mp hrs
    have hsort' : ((p ++ [r]) ++ s).Sorted (· ≤ ·) := by
      rw [List.append_assoc, List.singleton_append]; exact hsort
    have hlist : (p ++ [r]) ++ s = p ++ r :: s := by
      rw [List.append_assoc, List.singleton_append]
    have hrge : ∀ y ∈ r :: s, r ≤ y := by
      intro y hy
      rcases List.mem_cons.mp hy with h | h
      · exact h ▸ Nat.le_refl r
      · exact hr_s y h
    have hcollapse : countLt (p ++ r :: s) r = countLt p r := by
      rw [countLt_append, countLt_eq_zero (r :: s) r hrge, Nat.add_zero]
    by_cases hrc : r = current
    · simp only [rankLoop]
      rw [if_neg (fun hh => hh hrc)]
      have hmem' : current ∈ p ++ [r] := List.mem_append_left _ hmem
      have hub' : ∀ y ∈ p ++ [r], y ≤ current := by
        intro y hy
        rcases List.mem_append.mp hy with h | h
        · exact hub y h
        · rw [List.mem_singleton.mp h, hrc]
      have hrank' : countLt (p ++ [r]) current = countLt p current := by
        rw [countLt_append]
        have h0 : countLt [r] current = 0 :=
          countLt_eq_zero _ _ (by
            intro y hy
            rw [List.mem_singleton.mp hy, hrc])
        rw [h0, Nat.add_zero]
      have hcount' : countEq (p ++ [r]) current = countEq p current + 1 := by
        rw [countEq_append]
        have h1 : countEq [r] current = 1 := by
          simp [countEq, List.countP_cons, hrc]
        rw [h1]
      have htail := ih (p ++ [r]) current hsort' hmem' hub'
      rw [hrank', hcount', hlist] at htail
      rw [htail]
      have hhead : 1 + countLt p current = 1 + countLt (p ++ r :: s) r := by
        rw [hcollapse, hrc]
      rw [List.map_cons, ← hhead]
    · have hlt : current < r :=
        Nat.lt_of_le_of_ne hcur_r (fun h => hrc h.symm)
      simp only [rankLoop]
      rw [if_pos hrc]
      have hub_r : ∀ y ∈ p, y < r := fun y hy => Nat.lt_of_le_of_lt (hub y hy) hlt
      have hkey : countLt p current + countEq p current = countLt p r := by
        rw [countLt_add_countEq p current hub, countLt_eq_length p r hub_r]
      have hmem' : r ∈ p ++ [r] := List.mem_append_right _ (List.mem_singleton_self r)
      have hub' : ∀ y ∈ p ++ [r], y ≤ r := by
        intro y hy
        rcases List.mem_append.mp hy with h | h
        · exact Nat.le_of_lt (hub_r y h)
        · rw [List.mem_singleton.mp h]
      have hrank' : countLt (p ++ [r]) r = countLt p r := by
        rw [countLt_append]
        have h0 : countLt [r] r = 0 :=
          countLt_eq_zero _ _ (by
            intro y hy
            rw [List.mem_singleton.mp hy])
        rw [h0, Nat.add_zero]
      have hcount' : countEq (p ++ [r]) r = 1 := by
        rw [countEq_append]
        have h0 : countEq p r = 0 :=
          countEq_eq_zero _ _ (fun y hy => Nat.ne_of_lt (hub_r y hy))
        have h1 : countEq [r] r = 1 := by simp [countEq, List.countP_cons]
        rw [h0, h1]
      have htail := ih (p ++ [r]) r hsort' hmem' hub'
      rw [hrank', hcount', hlist] at htail
      have hstate : 1 + countLt p current + countEq p current = 1 + countLt p r := by
        omega
      rw [hstate, htail, List.map_cons, hcollapse]

theorem sortAsc_eq_of_perm (l l' : List Nat) (h : List.Perm l l') :
    sortAsc l = sortAsc l' :=
  List.eq_of_perm_of_sorted
    ((List.perm_insertionSort _ l).trans (h.trans (List.perm_insertionSort _ l').symm))
    (List.sorted_insertionSort _ l) (List.sorted_insertionSort _ l')

/-- The ranking of a non-empty window: each sorted record is emitted with
rank `1 + (number of window records strictly smaller than it)`. -/
theorem windowRank_map (l : List Nat) (hne : l ≠ []) :
    windowRank l = (sortAsc l).map (fun r => (r, 1 + countLt l r)) := by
  have hperm : List.Perm (sortAsc l) l := List.perm_insertionSort _ l
  have hsorted : (sortAsc l).Sorted (· ≤ ·) := List.sorted_insertionSort _ l
  cases hs : sortAsc l with
  | nil =>
    rw [hs] at hperm
    exact absurd hperm.symm.eq_nil hne
  | cons h t =>
    rw [hs] at hperm hsorted
    obtain ⟨hhead, htsort⟩ := List.sorted_cons.mp hsorted
    have hcount : ∀ x, countLt l x = countLt (h :: t) x :=
      fun x => countLt_perm _ _ x hperm.symm
    have hclh : countLt (h :: t) h = 0 :=
      countLt_eq_zero _ _ (by
        intro y hy
        rcases List.mem_cons.mp hy with hh | hh
        · exact hh ▸ Nat.le_refl h
        · exact hhead y hh)
    have hspec := rankLoop_spec t [h] h (by simpa using hsorted)
      (List.mem_singleton_self h)
      (fun y hy => by rw [List.mem_singleton.mp hy])
    have h1 : countLt [h] h = 0 := by
      simp [countLt, List.countP_cons]
    have h2 : countEq [h] h = 1 := by
      simp [countEq, List.countP_cons]
    rw [h1, h2] at hspec
    unfold windowRank
    rw [hs]
    simp only [windowRankAux, rankLoop]
    rw [if_neg (fun hh => hh rfl)]
    rw [hspec, List.map_cons]
    simp only [List.cons.injEq]
    refine ⟨by rw [hcount h, hclh], ?_⟩
    rw [List.singleton_append]
    exact (List.map_congr_left (fun x _ => by rw [hcount x])).symm

/-- Ranking is invariant under reordering of the collected records. -/
theorem windowRank_of_perm (l l' : List Nat) (h : List.Perm l l') :
    windowRank l = windowRank l' := by
  unfold windowRank
  rw [sortAsc_eq_of_perm l l' h]

/-! ## Window-close and scheduling helpers -/

/-- If the pane checked at `i = slice_count - 1` is present, the global pane
loop completes, accumulating the counts of all present panes. -/
theorem globalFireLoop_ok (buckets : Nat → Option Nat) (w slide sliceCount : Nat)
    (hfirst : (buckets (w - slide * (sliceCount - 1))).isSome = true) :
    ∀ (l : List Nat) (count : Nat),
    globalFireLoop buckets w slide sliceCount l count
      = Except.ok (count + (l.map (fun i => (buckets (w - slide * i)).getD 0)).sum) := by
  intro l
  induction l with
  | nil => intro count; simp [globalFireLoop]
  | cons i rest ih =>
    intro count
    simp only [globalFireLoop]
    by_cases hi : i = sliceCount - 1
    · rw [if_pos hi]
      cases hb : buckets (w - slide * i) with
      | none =>
        rw [hi] at hb
        rw [hb] at hfirst
        cases hfirst
      | some v =>
        rw [ih]
        simp only [List.map_cons, List.sum_cons, hb, Option.getD_some]
        rw [Nat.add_assoc]
    · rw [if_neg hi, ih]
      simp only [List.map_cons, List.sum_cons]
      rw [Nat.add_assoc]

/-- If the pane checked at `i = slice_count - 1` is absent and that index is
visited, the global pane loop aborts with the purge expect message. -/
theorem globalFireLoop_error (buckets : Nat → Option Nat) (w slide sliceCount : Nat)
    (hfirst : buckets (w - slide * (sliceCount - 1)) = none) :
    ∀ (l : List Nat) (count : Nat), (sliceCount - 1) ∈ l →
    globalFireLoop buckets w slide sliceCount l count
      = Except.error "Pane to remove must exist" := by
  intro l
  induction l with
  | nil => intro count hmem; cases hmem
  | cons i rest ih =>
    intro count hmem
    simp only [globalFireLoop]
    by_cases hi : i = sliceCount - 1
    · rw [if_pos hi, hi, hfirst]
    · rw [if_neg hi]
      rcases List.mem_cons.mp hmem with h | h
      · exact absurd h.symm hi
      · exact ih _ h

/-- The slice purge succeeds exactly when every expiring slice is present in
the index. -/
theorem slicePurge_ok_iff (index : Nat → Option (List Nat)) (l : List Nat) :
    slicePurge index l = Except.ok () ↔ ∀ s ∈ l, (index s).isSome = true := by
  induction l with
  | nil => simp [slicePurge]
  | cons s rest ih =>
    simp only [slicePurge, List.mem_cons]
    cases hs : index s with
    | none =>
      constructor
      · intro h; cases h
      · intro h
        have := h s (Or.inl rfl)
        rw [hs] at this
        cases this
    | some keys =>
      rw [ih]
      constructor
      · intro h x hx
        rcases hx with h1 | h1
        · rw [h1, hs]; rfl
        · exact h x h1
      · intro h x hx
        exact h x (Or.inr hx)

/-- The accumulator-threading shape of the slide loop's fold. -/
theorem scheduleFold_eq (c : Nat) (g : Nat → Nat) (l : List Nat) :
    ∀ acc : List Nat × List Nat,
    l.foldl (fun acc sl =>
        let we := g sl
        if we < c then (acc.1 ++ [we], acc.2) else (acc.1, acc.2 ++ [we])) acc
      = (acc.1 ++ (l.map g).filter (fun we => decide (we < c)),
         acc.2 ++ (l.map g).filter (fun we => !decide (we < c))) := by
  induction l with
  | nil => intro acc; simp
  | cons sl rest ih =>
    intro acc
    simp only [List.foldl_cons, List.map_cons, List.filter_cons]
    by_cases h : g sl < c
    · rw [decide_eq_true h]
      simp only [if_pos h, Bool.not_true, if_true, if_false, ih]
      simp [List.append_assoc]
    · rw [decide_eq_false h]
      simp only [if_neg h, Bool.not_false, if_true, if_false, ih]
      simp [List.append_assoc]

/-- The slide loop as filters over the produced window ends. -/
theorem scheduleWindows_eq (lastSlideSeen currentSl slide sliceCount : Nat) :
    scheduleWindows lastSlideSeen currentSl slide sliceCount
      = (((stepRange (lastSlideSeen + slide) (currentSl + slide) slide).map
            (fun sl => sl + slide * (sliceCount - 1))).filter
            (fun we => decide (we < currentSl)),
         ((stepRange (lastSlideSeen + slide) (currentSl + slide) slide).map
            (fun sl => sl + slide * (sliceCount - 1))).filter
            (fun we => !decide (we < currentSl))) := by
  unfold scheduleWindows
  rw [scheduleFold_eq currentSl (fun sl => sl + slide * (sliceCount - 1))]
  simp

/-- `current_slide` is monotone in the epoch. -/
theorem currentSlide_mono (slide t t' : Nat) (h : t ≤ t') :
    currentSlide slide t ≤ currentSlide slide t' :=
  Nat.mul_le_mul_right _ (Nat.add_le_add_right (Nat.div_le_div_right h) 1)

/-- If the batches' epochs never regress and the initial cursor is below the
first epoch's slide, no batch fails the assertion and the successive cursor
values are non-decreasing. -/
theorem batchTrace_sound (slide : Nat) (ts : List Nat) :
    ∀ last, List.Chain' (· ≤ ·) ts →
    (∀ t, ts.head? = some t → last ≤ currentSlide slide t) →
    ∃ tr, batchTrace slide last ts = some tr
      ∧ List.Chain' (· ≤ ·) (last :: tr) := by
  induction ts with
  | nil => exact fun last _ _ => ⟨[], rfl, List.chain'_singleton last⟩
  | cons t ts ih =>
    intro last hchain hhead
    have hle : last ≤ currentSlide slide t := hhead t rfl
    have hstep : batchStep slide last t = some (currentSlide slide t) := by
      unfold batchStep
      rw [if_neg (Nat.not_lt.mpr hle)]
      by_cases h : last < currentSlide slide t
      · rw [if_pos h]
      · rw [if_neg h, Nat.le_antisymm hle (Nat.not_lt.mp h)]
    obtain ⟨hth, hchain'⟩ := List.chain'_cons'.mp hchain
    have hhead' : ∀ t', ts.head? = some t' →
        currentSlide slide t ≤ currentSlide slide t' :=
      fun t' ht' => currentSlide_mono slide t t' (hth t' ht')
    obtain ⟨tr, htr, hch⟩ := ih (currentSlide slide t) hchain' hhead'
    refine ⟨currentSlide slide t :: tr, ?_, ?_⟩
    · simp only [batchTrace, hstep, htr]
      rfl
    · exact List.chain'_cons.mpr ⟨hle, hch⟩

/-! ## Backend round-trip helpers -/

theorem decodeU64_serU64 (v : Nat) (hv : v < 2 ^ 64) :
    decodeU64 (serU64 v) = some v := by
  have h8 : (256 : Nat) ^ 8 = 2 ^ 64 := by norm_num
  have hlt : v < 256 ^ 8 := by rw [h8]; exact hv
  unfold decodeU64 serU64
  rw [if_pos (by simp), List.take_of_length_le (by simp), fromLeBytes_leBytes,
    Nat.mod_eq_of_lt hlt]

theorem rdbPrefixKey_ne_name (name : List Nat) (k : Nat) :
    rdbPrefixKey name k ≠ rdbName name := by
  intro h
  have hlen := congrArg List.length h
  simp only [rdbPrefixKey, List.length_append, serU64, leBytes_length] at hlen
  omega

/-- Core of the ordered-key property: under a fixed name prefix, the stored
byte strings of two `u64` keys compare byte-lexicographically exactly as the
numbers compare. -/
theorem storedIntKey_le_iff (name : List Nat) (a b : Nat)
    (ha : a < 2 ^ 64) (hb : b < 2 ^ 64) :
    a ≤ b ↔ bytesLe (storedIntKey name a) (storedIntKey name b) = true := by
  have h8 : (256 : Nat) ^ 8 = 2 ^ 64 := by norm_num
  have ha' : a < 256 ^ 8 := by rw [h8]; exact ha
  have hb' : b < 256 ^ 8 := by rw [h8]; exact hb
  have hka : serU64 (toBe64 a) = beBytes 8 a := by
    rw [serU64, leBytes_toBe64, ← beBytes_eq_reverse 8 a ha']
  have hkb : serU64 (toBe64 b) = beBytes 8 b := by
    rw [serU64, leBytes_toBe64, ← beBytes_eq_reverse 8 b hb']
  unfold storedIntKey
  rw [hka, hkb, bytesLe_append_same]
  exact (beBytes_le_iff 8 a b ha' hb').symm

/-! ## Claim theorems -/

/-- C1 counterexample: on the RocksDB read-then-write backend (map name "",
as in the backend's own tests), after `insert(1, 1337)` a first `remove(1)`
returns `Some(1337)` — and so does a second `remove(1)`, instead of the
`None` the claim requires for every backend: `remove` deletes the bare
serialized-name key, not the entry it just read. -/
theorem claim1_remove_counterexample :
    (rdbRemove [] (rdbInsert [] emptyStore 1 1337) 1).1 = Except.ok (some 1337)
    ∧ (rdbRemove [] (rdbRemove [] (rdbInsert [] emptyStore 1 1337) 1).2 1).1
        = Except.ok (some 1337) := by
  constructor <;> rfl

/-- C1 amended: after `insert(k, v)`, `remove(k)` returns `Some(v)` on all
three modelled backends, but only the in-memory backend deletes the entry
(its second `remove(k)` returns `None`); the RocksDB read-then-write
backend deletes the serialized map name instead of the entry, and the
FASTER backend's `remove` is a pure read leaving the store unchanged, so on
both a second `remove(k)` returns `Some(v)` again. -/
theorem claim1_remove_amended (name : List Nat) (m : InnerMap) (st : Store Nat)
    (db : Store (List Nat)) (k v : Nat) (hv : v < 2 ^ 64) :
    ((imRemove (imInsert m k v) k).1 = some v
      ∧ (imRemove (imRemove (imInsert m k v) k).2 k).1 = none)
    ∧ ((rdbRemove name (rdbInsert name db k v) k).1 = Except.ok (some v)
      ∧ (rdbRemove name (rdbRemove name (rdbInsert name db k v) k).2 k).1
          = Except.ok (some v))
    ∧ ((fstRemove name (fstInsert name st k v) k).1 = some v
      ∧ (fstRemove name (fstRemove name (fstInsert name st k v) k).2 k).1
          = some v
      ∧ (fstRemove name (fstInsert name st k v) k).2
          = fstInsert name st k v) := by
  have hne := rdbPrefixKey_ne_name name k
  refine ⟨⟨?_, ?_⟩, ⟨?_, ?_⟩, ⟨?_, ?_, rfl⟩⟩
  · simp [imRemove, imInsert]
  · simp [imRemove, imInsert]
  · simp [rdbRemove, rdbGet, rdbInsert, storePut, decodeU64_serU64 v hv]
  · simp [rdbRemove, rdbGet, rdbInsert, storePut, storeDelete, hne,
      decodeU64_serU64 v hv]
  · simp [fstRemove, fstGet, fasterRead, fstInsert, storePut]
  · simp [fstRemove, fstGet, fasterRead, fstInsert, storePut]

theorem claim1_remove_amended_witness :
    (((imRemove (imInsert (fun _ => none) 1 1337) 1).1 = some 1337
      ∧ (imRemove (imRemove (imInsert (fun _ => none) 1 1337) 1).2 1).1 = none)
    ∧ ((rdbRemove [97] (rdbInsert [97] emptyStore 1 1337) 1).1
          = Except.ok (some 1337)
      ∧ (rdbRemove [97] (rdbRemove [97] (rdbInsert [97] emptyStore 1 1337) 1).2 1).1
          = Except.ok (some 1337))
    ∧ ((fstRemove [97] (fstInsert [97] emptyStore 1 1337) 1).1 = some 1337
      ∧ (fstRemove [97] (fstRemove [97] (fstInsert [97] emptyStore 1 1337) 1).2 1).1
          = some 1337
      ∧ (fstRemove [97] (fstInsert [97] emptyStore 1 1337) 1).2
          = fstInsert [97] emptyStore 1 1337)) :=
  claim1_remove_amended [97] (fun _ => none) emptyStore emptyStore 1 1337
    (by norm_num)

/-- C2 counterexample: a window close at `window_end = 3000` with slide 1000
and slice count 3 on a store where no pane was ever ingested: the global
count handler aborts with the purge expect message instead of emitting a
count of 0. -/
theorem claim2_empty_window_counterexample :
    globalCountFire (fun _ => none) 3000 1000 3
      = Except.error "Pane to remove must exist" := by
  rfl

/-- C2 amended: at a window close, panes missing at lookup contribute zero
(they are only logged) and the emitted count is the sum over the present
panes — but only when the window's first pane (the one purged) is present;
when it is absent, as in a window with no ingested data at all, the handler
aborts with the fatal `"Pane to remove must exist"` purge assertion before
emitting anything. -/
theorem claim2_empty_window_amended (buckets : Nat → Option Nat)
    (w slide sliceCount : Nat) (hpos : 0 < sliceCount) :
    (buckets (w - slide * (sliceCount - 1)) = none →
      globalCountFire buckets w slide sliceCount
        = Except.error "Pane to remove must exist")
    ∧ ((buckets (w - slide * (sliceCount - 1))).isSome = true →
      globalCountFire buckets w slide sliceCount
        = Except.ok (w, ((List.range sliceCount).map
            (fun i => (buckets (w - slide * i)).getD 0)).sum)) := by
  constructor
  · intro hnone
    have hmem : sliceCount - 1 ∈ List.range sliceCount :=
      List.mem_range.mpr (by omega)
    unfold globalCountFire
    rw [globalFireLoop_error buckets w slide sliceCount hnone _ 0 hmem]
    rfl
  · intro hsome
    unfold globalCountFire
    rw [globalFireLoop_ok buckets w slide sliceCount hsome _ 0, Nat.zero_add]
    rfl

theorem claim2_empty_window_amended_witness :
    globalCountFire (fun _ => none) 7000 1000 3
      = Except.error "Pane to remove must exist" :=
  (claim2_empty_window_amended (fun _ => none) 7000 1000 3 (by norm_num)).1 rfl

/-- C3: for a non-empty window, the rank query emits the sorted records each
with rank `1 + (number of records strictly smaller)` — so the first sorted
record has rank 1, equal keys share the rank, and the rank after a
tie-group equals 1 plus all records strictly before it, jumping by the
group size — and the emitted `(window_end, key, rank)` records do not
depend on the input order of the records. -/
theorem claim3_rank_spec (w : Nat) (l : List Nat) (hne : l ≠ []) :
    windowRankEmit w l = (sortAsc l).map (fun r => (w, r, 1 + countLt l r))
    ∧ ∀ l', List.Perm l l' → windowRankEmit w l = windowRankEmit w l' := by
  constructor
  · unfold windowRankEmit
    rw [windowRank_map l hne, List.map_map]
    rfl
  · intro l' hp
    unfold windowRankEmit
    rw [windowRank_of_perm l l' hp]

theorem claim3_rank_spec_witness :
    (windowRankEmit 3000 [7, 9, 7]
        = (sortAsc [7, 9, 7]).map (fun r => (3000, r, 1 + countLt [7, 9, 7] r))
      ∧ windowRankEmit 3000 [7, 9, 7] = windowRankEmit 3000 [9, 7, 7])
    ∧ windowRankEmit 3000 [7, 9, 7]
        = [(3000, 7, 1), (3000, 7, 1), (3000, 9, 3)] := by
  have h := claim3_rank_spec 3000 [7, 9, 7] (by decide)
  exact ⟨⟨h.1, h.2 [9, 7, 7] (by decide)⟩, by decide⟩

/-- C4 counterexample: on the keyed count query's lagging path with an empty
slice index (nothing was ever ingested for the fired window), the purge
step aborts with `"Slice must exist in index"` — it does not tolerate the
absent slice entry. -/
theorem claim4_purge_counterexample :
    (keyedCountFire (fun _ => none) (fun _ => none)
        3000000000 1000000000 3).2
      = Except.error "Slice must exist in index" := by
  rfl

/-- C4 amended: in the keyed path the pane-bucket removal is best-effort —
the handler's purge outcome is independent of the pane contents — but the
slice-index purge asserts presence: it succeeds exactly when every expiring
slice entry is present and otherwise aborts the handler. -/
theorem claim4_purge_amended (index : Nat → Option (List Nat))
    (buckets buckets' : Nat × Nat → Option Nat) (w slide sliceCount : Nat) :
    ((keyedCountFire index buckets w slide sliceCount).2 = Except.ok ()
      ↔ ∀ s ∈ stepRange (w - slide * sliceCount + sliceWidth)
            (w - slide * sliceCount + slide + 1) sliceWidth,
          (index s).isSome = true)
    ∧ (keyedCountFire index buckets w slide sliceCount).2
        = (keyedCountFire index buckets' w slide sliceCount).2 := by
  exact ⟨slicePurge_ok_iff index _, rfl⟩

/-- C5 counterexample: the keyed count query's close of the window ending at
`3·10⁹` (slide `10⁹`, slice count 3), with key 7 indexed in the first slice
and a keyed pane count of 2, emits exactly the pair `(7, 2)` — the record
has no component carrying the closing window's end timestamp. -/
theorem claim5_output_counterexample :
    (keyedCountFire
        (fun s => if s = 1000000000 then some [7] else none)
        (fun p => if p = (7, 1000000000) then some 2 else none)
        3000000000 1000000000 3).1 = [(7, 2)]
    ∧ (7 : Nat) ≠ 3000000000 ∧ (2 : Nat) ≠ 3000000000 := by
  refine ⟨by rfl, by norm_num, by norm_num⟩

/-- C5 amended: per query, the records emitted at a window close are:
triples `(window_end, key, rank)` for the global rank query; pairs
`(window_end, count)` — no key — for the global count query; and pairs
`(key, count)` — no window-end timestamp — for the keyed count query. -/
theorem claim5_output_amended (w slide sliceCount : Nat) (l : List Nat)
    (buckets : Nat → Option Nat) (index : Nat → Option (List Nat))
    (kbuckets : Nat × Nat → Option Nat) (hne : l ≠ [])
    (hfirst : (buckets (w - slide * (sliceCount - 1))).isSome = true) :
    windowRankEmit w l = (sortAsc l).map (fun r => (w, r, 1 + countLt l r))
    ∧ globalCountFire buckets w slide sliceCount
        = Except.ok (w, ((List.range sliceCount).map
            (fun i => (buckets (w - slide * i)).getD 0)).sum)
    ∧ (keyedCountFire index kbuckets w slide sliceCount).1
        = (collectKeys index (stepRange (w - slide * sliceCount + sliceWidth)
            (w + sliceWidth) sliceWidth)).map
            (fun k => (k, keyedPaneSum kbuckets k w slide sliceCount)) := by
  refine ⟨?_, ?_, rfl⟩
  · unfold windowRankEmit
    rw [windowRank_map l hne, List.map_map]
    rfl
  · unfold globalCountFire
    rw [globalFireLoop_ok buckets w slide sliceCount hfirst _ 0, Nat.zero_add]
    rfl

theorem claim5_output_amended_witness :
    windowRankEmit 2000 [4, 4, 6]
        = (sortAsc [4, 4, 6]).map (fun r => (2000, r, 1 + countLt [4, 4, 6] r))
    ∧ globalCountFire (fun p => if p = 1000 then some 5 else none) 2000 1000 2
        = Except.ok (2000, ((List.range 2).map
            (fun i => ((fun p => if p = 1000 then some 5 else none)
              (2000 - 1000 * i)).getD 0)).sum)
    ∧ (keyedCountFire (fun _ => none) (fun _ => none) 2000 1000 2).1
        = (collectKeys (fun _ => none)
            (stepRange (2000 - 1000 * 2 + sliceWidth) (2000 + sliceWidth)
              sliceWidth)).map
            (fun k => (k, keyedPaneSum (fun _ => none) k 2000 1000 2)) :=
  claim5_output_amended 2000 1000 2 [4, 4, 6]
    (fun p => if p = 1000 then some 5 else none) (fun _ => none) (fun _ => none)
    (by decide) (by decide)

/-- C6 counterexample: with slide 1000, slice count 3, `last_slide_seen = 0`
and `current_slide = 3000`, the generated window ending exactly at
`current_slide` (3000) is given a notification request and the pending-fire
set stays empty — the boundary case `window_end = current_slide` is not
added to the pending-fire set as the claim states. -/
theorem claim6_lagging_counterexample :
    scheduleWindows 0 3000 1000 3 = ([], [3000, 4000, 5000])
    ∧ 3000 ∉ (scheduleWindows 0 3000 1000 3).1
    ∧ 3000 ∈ (scheduleWindows 0 3000 1000 3).2 := by
  refine ⟨by rfl, by decide, by decide⟩

/-- C6 amended: a new window end joins the local pending-fire set iff it
lies strictly behind `current_slide`; a window end equal to or ahead of
`current_slide` gets a notification request instead. -/
theorem claim6_lagging_amended (lastSlideSeen currentSl slide sliceCount we : Nat) :
    (we ∈ (scheduleWindows lastSlideSeen currentSl slide sliceCount).1
      ↔ we ∈ (stepRange (lastSlideSeen + slide) (currentSl + slide) slide).map
            (fun sl => sl + slide * (sliceCount - 1)) ∧ we < currentSl)
    ∧ (we ∈ (scheduleWindows lastSlideSeen currentSl slide sliceCount).2
      ↔ we ∈ (stepRange (lastSlideSeen + slide) (currentSl + slide) slide).map
            (fun sl => sl + slide * (sliceCount - 1)) ∧ currentSl ≤ we) := by
  rw [scheduleWindows_eq]
  constructor
  · simp [List.mem_filter]
  · simp [List.mem_filter, Nat.not_lt]

/-- C7: if the batch epochs presented to an operator never decrease, then
starting from `last_slide_seen = 0` no batch ever fails the
`last_slide_seen <= current_slide` assertion, and the successive values of
`last_slide_seen` are non-decreasing. -/
theorem claim7_monotone_cursor (slide : Nat) (ts : List Nat)
    (h : List.Chain' (· ≤ ·) ts) :
    ∃ tr, batchTrace slide 0 ts = some tr
      ∧ List.Chain' (· ≤ ·) (0 :: tr) :=
  batchTrace_sound slide ts 0 h (fun _ _ => Nat.zero_le _)

theorem claim7_monotone_cursor_witness :
    ∃ tr, batchTrace 1000 0 [500, 1500, 2500] = some tr
      ∧ List.Chain' (· ≤ ·) (0 :: tr) :=
  claim7_monotone_cursor 1000 [500, 1500, 2500]
    (List.chain'_cons.mpr ⟨by norm_num,
      List.chain'_cons.mpr ⟨by norm_num, List.chain'_singleton _⟩⟩)

/-- C8: for `u64` integers `a`, `b` under the same map-name prefix,
`a ≤ b` iff the stored key bytes (serialized name, then the serialized
big-endian transform of the integer) compare byte-lexicographically `≤`;
consequently a list of pane timestamps is in ascending numeric order
exactly when their stored keys are in byte-lexicographic order, which is
the order a forward iteration visits them in. -/
theorem claim8_bigendian_order (name : List Nat) (a b : Nat)
    (ha : a < 2 ^ 64) (hb : b < 2 ^ 64) :
    (a ≤ b ↔ bytesLe (storedIntKey name a) (storedIntKey name b) = true)
    ∧ ∀ panes : List Nat, (∀ p ∈ panes, p < 2 ^ 64) →
      (panes.Pairwise (· ≤ ·) ↔
        (panes.map (storedIntKey name)).Pairwise
          (fun x y => bytesLe x y = true)) := by
  refine ⟨storedIntKey_le_iff name a b ha hb, ?_⟩
  intro panes hbound
  constructor
  · intro hs
    exact List.pairwise_map.mpr (hs.imp_of_mem (fun hx hy hxy =>
      (storedIntKey_le_iff name _ _ (hbound _ hx) (hbound _ hy)).mp hxy))
  · intro hs
    exact (List.pairwise_map.mp hs).imp_of_mem (fun hx hy hxy =>
      (storedIntKey_le_iff name _ _ (hbound _ hx) (hbound _ hy)).mpr hxy)

theorem claim8_bigendian_order_witness :
    ((1000 : Nat) ≤ 2000
      ↔ bytesLe (storedIntKey [112] 1000) (storedIntKey [112] 2000) = true)
    ∧ (([1000, 2000, 3000] : List Nat).Pairwise (· ≤ ·) ↔
        (([1000, 2000, 3000] : List Nat).map (storedIntKey [112])).Pairwise
          (fun x y => bytesLe x y = true)) := by
  have h := claim8_bigendian_order [112] 1000 2000 (by norm_num) (by norm_num)
  exact ⟨h.1, h.2 [1000, 2000, 3000] (by decide)⟩

/-- C9 counterexample: with map name "a" (one character, serialized as 8
length bytes and the byte 97) and inserted key 5, the merge-operator
backend's `next` — which does not strip the prefix — decodes the raw stored
key to 1 (the serialized name's length field), not to the inserted key 5,
while the read-then-write backend's `next` correctly returns 5. -/
theorem claim9_next_counterexample :
    mergeNextKey (rdbPrefixKey [97] 5) = some 1
    ∧ rdbNextKey [97] (rdbPrefixKey [97] 5) = some 5 := by
  constructor <;> rfl

/-- C9 amended: `get_key_prefix_length()` is the serialized map name's
length, the stored raw key is that prefix followed by the serialized key,
and stripping the prefix from a raw key and decoding the remainder yields
the key again — which is what the read-then-write backend's `next` does;
the merge-operator backend's `next` decodes the unstripped raw key and
returns the serialized name's leading length field instead of the inserted
key. -/
theorem claim9_next_amended (name : List Nat) (k : Nat) (hk : k < 2 ^ 64) :
    rdbKeyPrefixLength name = (serializeStr name).length
    ∧ rdbPrefixKey name k = serializeStr name ++ serU64 k
    ∧ decodeU64 ((rdbPrefixKey name k).drop (rdbKeyPrefixLength name)) = some k
    ∧ rdbNextKey name (rdbPrefixKey name k) = some k
    ∧ mergeNextKey (rdbPrefixKey name k) = some (name.length % 2 ^ 64) := by
  have hdrop : (rdbPrefixKey name k).drop (rdbKeyPrefixLength name) = serU64 k := by
    unfold rdbPrefixKey rdbKeyPrefixLength
    exact List.drop_left _ _
  have hstrip : decodeU64 ((rdbPrefixKey name k).drop (rdbKeyPrefixLength name))
      = some k := by
    rw [hdrop]
    exact decodeU64_serU64 k hk
  refine ⟨rfl, rfl, hstrip, ?_, ?_⟩
  · unfold rdbNextKey
    exact hstrip
  · unfold mergeNextKey rdbPrefixKey rdbName serializeStr
    have hlen : 8 ≤ ((leBytes 8 name.length ++ name) ++ serU64 k).length := by
      simp [serU64]
    unfold decodeU64
    rw [if_pos hlen, List.append_assoc]
    have htake : ((leBytes 8 name.length) ++ (name ++ serU64 k)).take 8
        = leBytes 8 name.length := by
      have h := List.take_left (leBytes 8 name.length) (name ++ serU64 k)
      rw [leBytes_length] at h
      exact h
    rw [htake, fromLeBytes_leBytes]
    norm_num

theorem claim9_next_amended_witness :
    rdbKeyPrefixLength [97] = (serializeStr [97]).length
    ∧ rdbPrefixKey [97] 6 = serializeStr [97] ++ serU64 6
    ∧ decodeU64 ((rdbPrefixKey [97] 6).drop (rdbKeyPrefixLength [97])) = some 6
    ∧ rdbNextKey [97] (rdbPrefixKey [97] 6) = some 6
    ∧ mergeNextKey (rdbPrefixKey [97] 6)
        = some (([97] : List Nat).length % 2 ^ 64) :=
  claim9_next_amended [97] 6 (by norm_num)

/-- C10: on both RocksDB-backed managed maps, `contains` is `is_ok()` of the
underlying read, so on a healthy store it is `true` for every key — also
for keys never inserted; in particular, on the empty store `contains(k)` is
`true` while `get(k)` returns no value. -/
theorem claim10_contains_vs_get (db : Store (List Nat)) (name : List Nat)
    (k : Nat) :
    (rdbContains name db k = true ∧ mergeContains name db k = true)
    ∧ (rdbContains name emptyStore k = true
        ∧ rdbGet name emptyStore k = Except.ok none) :=
  ⟨⟨rfl, rfl⟩, rfl, rfl⟩

end VLDB
